import Mathlib

/-
Verification development for the monomial engine of the `inflation` /
`causalinflation` packages (files `inflation/lp/InflationLP.py` and
`causalinflation/quantum/InflationSDP.py`).

Shallow embedding conventions:
  * Python dictionaries are association lists `List (K × V)`; assignment is
    update-or-append (`upsertKey`), deletion is `deleteKey`, lookup returns the
    first matching entry (`lookupKey`).  Python floats are embedded as `ℚ`.
  * `numpy.isclose(a, b)` with its default tolerances `rtol = 1e-5`,
    `atol = 1e-8` is `npIsClose a b := |a - b| ≤ 1e-8 + 1e-5 * |b|`.
  * Fallible code returns `Except String`.
  * Bit vectors over the lexicographic operator order (`numpy` boolean arrays)
    are `List Bool`; permutation arrays are `List ℕ` acting by fancy indexing.
-/

/-- First-match lookup in an association list, as for a Python dictionary. -/
def lookupKey {K V : Type} [DecidableEq K] : List (K × V) → K → Option V
  | [], _ => none
  | (k, v) :: rest, k2 => if k2 = k then some v else lookupKey rest k2

/-- Python dictionary assignment `d[k] = v`: replace the binding if the key is
present, otherwise append it. -/
def upsertKey {K V : Type} [DecidableEq K] : List (K × V) → K → V → List (K × V)
  | [], k, v => [(k, v)]
  | (k1, v1) :: rest, k, v =>
    if k = k1 then (k1, v) :: rest else (k1, v1) :: upsertKey rest k v

/-- Python dictionary deletion `del d[k]`. -/
def deleteKey {K V : Type} [DecidableEq K] (l : List (K × V)) (k : K) : List (K × V) :=
  l.filter (fun p => !(p.1 == k))

/-- First-defined choice between two optional values. -/
def orElseOpt {α : Type} : Option α → Option α → Option α
  | some v, _ => some v
  | none, o => o

/-- Whether an `Except` computation ended in an exception. -/
def isErr {ε α : Type} : Except ε α → Bool
  | .error _ => true
  | .ok _ => false

/-- The test `numpy.isclose(a, b)` with the default tolerances
`rtol = 1e-5` and `atol = 1e-8`: `|a - b| ≤ atol + rtol * |b|`. -/
def npIsClose (a b : ℚ) : Bool :=
  decide (|a - b| ≤ 1 / 100000000 + (1 / 100000) * |b|)

/-
The compound-monomial objects of `InflationSDP.__init__`
(`causalinflation/quantum/InflationSDP.py`, lines 116-153).  A compound
monomial is kept as its 2d operator array together with the attached integer
index; the width of an operator row is `1 + nr_sources + 2`.
-/

/-- Row width of an operator array: `self._nr_properties = 1 + self.nr_sources + 2`
(`InflationSDP.py`, line 117). -/
def nrPropertiesOf (nrSources : ℕ) : ℕ :=
  1 + nrSources + 2

/-- The operator array of the unit monomial: an empty array with
`_nr_properties` columns (`InflationSDP.py`, line 119). -/
def identityOperator : List (List ℕ) := []

/-- The operator array of the zero monomial: one all-zero row
(`InflationSDP.py`, line 120). -/
def zeroOperator (nrSources : ℕ) : List (List ℕ) :=
  [List.replicate (nrPropertiesOf nrSources) 0]

/-- A compound monomial of the SDP engine: its canonical operator array and its
attached integer index (`Monomial(..., idx=...)` followed by
`attach_idx_to_mon`). -/
structure CompoundMonSDP where
  ops : List (List ℕ)
  idx : ℤ
deriving DecidableEq, Repr

/-- The reserved zero monomial `self.Zero = self.Monomial(self.zero_operator, idx=0)`
(`InflationSDP.py`, line 152). -/
def sdpZero (nrSources : ℕ) : CompoundMonSDP :=
  { ops := zeroOperator nrSources, idx := 0 }

/-- The reserved unit monomial `self.One = self.Monomial(self.identity_operator, idx=1)`
(`InflationSDP.py`, line 153). -/
def sdpOne : CompoundMonSDP :=
  { ops := identityOperator, idx := 1 }

/-- The numeric branch of `InflationSDP._sanitise_monomial`
(`InflationSDP.py`, lines 1064-1076): a real number close to 1 yields the unit,
a number close to 0 yields the zero monomial, anything else raises. -/
def sdpSanitiseNumber (nrSources : ℕ) (x : ℚ) : Except String CompoundMonSDP :=
  if npIsClose x 1 then .ok sdpOne
  else if npIsClose x 0 then .ok (sdpZero nrSources)
  else .error "Constant monomial can only be 0 or 1."

/-- The unit monomial of the LP engine, identified with its (empty) list of
lexicographic operator positions. -/
def lpOneMon : List ℕ := []

/-- The numeric branch of `InflationLP._sanitise_monomial`
(`inflation/lp/InflationLP.py`, lines 1068-1075): only a number close to 1 is
accepted (yielding the unit); every other number, including 0, raises. -/
def lpSanitiseNumber (x : ℚ) : Except String (List ℕ) :=
  if npIsClose x 1 then .ok lpOneMon
  else .error "Constant monomial can only be 1."

/-
`InflationLP._set_upperbounds` and `InflationLP._set_lowerbounds`
(`InflationLP.py`, lines 1803-1852).  Keys are taken already sanitised
(`_sanitise_monomial` is the identity on `CompoundMonomial` instances); the
dictionary iteration order is the entry order of the input list.  On a repeated
monomial the code keeps the first stored bound and asserts
`np.isclose(old_bound, new_bound)`, raising an `AssertionError` otherwise.
-/

/-- The sanitisation loop shared by `_set_upperbounds` and `_set_lowerbounds`:
insert first occurrences, and on a repeat assert that the new bound is
`np.isclose` to the stored one. -/
def sanitizeBoundsLoop {K : Type} [DecidableEq K] :
    List (K × ℚ) → List (K × ℚ) → Except String (List (K × ℚ))
  | [], acc => .ok acc
  | (m, b) :: rest, acc =>
    match lookupKey acc m with
    | none => sanitizeBoundsLoop rest (acc ++ [(m, b)])
    | some old =>
      if npIsClose old b then sanitizeBoundsLoop rest acc
      else .error "Contradiction: Cannot set the same monomial to have different bounds."

/-- `InflationLP._set_upperbounds` (lines 1803-1827) on an already-sanitised
item list. -/
def lpSetUpperbounds {K : Type} [DecidableEq K] (upperbounds : List (K × ℚ)) :
    Except String (List (K × ℚ)) :=
  sanitizeBoundsLoop upperbounds []

/-- `InflationLP._set_lowerbounds` (lines 1829-1852); the body is the same loop
as `_set_upperbounds`, duplicated in the source. -/
def lpSetLowerbounds {K : Type} [DecidableEq K] (lowerbounds : List (K × ℚ)) :
    Except String (List (K × ℚ)) :=
  sanitizeBoundsLoop lowerbounds []

/-
Valuation state and the supports-problem cleanup.
`InflationSDP.cleanup_after_set_values` (`InflationSDP.py`, lines 904-937) and
`InflationLP._cleanup_after_set_values` (`InflationLP.py`, lines 1486-1507).
Only the moment dictionaries are modelled; the name dictionaries mirror them
and the subsequent `update_physical_lowerbounds` / `_update_objective` calls do
not modify `known_moments`, `semiknown_moments` or `moment_lowerbounds`.
-/

/-- The per-engine valuation state: `known_moments`, `semiknown_moments`
(each value a coefficient together with the unknown remainder monomial) and
`moment_lowerbounds`. -/
structure MomentState (K : Type) where
  known : List (K × ℚ)
  semiknown : List (K × (ℚ × K))
  lower : List (K × ℚ)
deriving DecidableEq, Repr

/-- The supports-problem branch shared by both cleanups: every known moment
whose value is not `np.isclose` to 0 is removed from `known_moments` and given
the lower bound `1.`, and `semiknown_moments` is emptied. -/
def supportsBranch {K : Type} [DecidableEq K] (s : MomentState K) : MomentState K :=
  let nonzero := (s.known.filter (fun p => !npIsClose p.2 0)).map Prod.fst
  { known := s.known.filter (fun p => npIsClose p.2 0)
    semiknown := []
    lower := nonzero.foldl (fun l m => upsertKey l m 1) s.lower }

/-- `InflationSDP.cleanup_after_set_values` (lines 917-930), restricted to the
moment dictionaries: the supports branch runs only when `supports_problem`. -/
def sdpCleanupAfterSetValues {K : Type} [DecidableEq K] (supportsProblem : Bool)
    (s : MomentState K) : MomentState K :=
  if supportsProblem then supportsBranch s else s

/-- `InflationLP._cleanup_after_set_values` (lines 1486-1507): the supports
branch, followed by popping every known key out of `semiknown_moments`. -/
def lpCleanupAfterSetValues {K : Type} [DecidableEq K] (supportsProblem : Bool)
    (s : MomentState K) : MomentState K :=
  let s1 := if supportsProblem then supportsBranch s else s
  { s1 with semiknown := s1.semiknown.filter (fun p => (lookupKey s1.known p.1).isNone) }

/-
`InflationSDP._update_objective` (`InflationSDP.py`, lines 996-1028).
The known-moment keys occurring in the objective (the unit excluded) are
substituted into the unit coefficient; then, for each semiknown key occurring
in the processed objective, the code executes
`for (k, v2) in self.semiknown_moments[v1]: ...`.
Since `self.semiknown_moments[v1]` is the 2-tuple `(value, unknown_monomial)`
(set at line 841), this `for` iterates over the tuple and its first step
attempts to unpack the numeric `value` into the pair `(k, v2)`, raising
`TypeError: cannot unpack non-iterable float object`.  The embedding therefore
returns that error whenever a semiknown key survives in the processed
objective.  The iteration order over the key set is fixed to the objective
entry order.
-/

/-- `InflationSDP._update_objective`, over association lists.  The `one`
argument is `self.One`. -/
def sdpUpdateObjective {K : Type} [DecidableEq K] (one : K)
    (objective known : List (K × ℚ)) (semiknown : List (K × (ℚ × K))) :
    Except String (List (K × ℚ)) :=
  let knownKeys := (objective.map Prod.fst).filter
    (fun m => !(m == one) && (lookupKey known m).isSome)
  let step1 : Except String (List (K × ℚ)) := knownKeys.foldl (fun acc m =>
    match acc with
    | .error e => .error e
    | .ok proc =>
      match lookupKey known m, lookupKey proc m, lookupKey proc one with
      | some v, some c, some oneCoef =>
        .ok (deleteKey (upsertKey proc one (oneCoef + c * v)) m)
      | _, _, _ => .error "KeyError") (.ok objective)
  match step1 with
  | .error e => .error e
  | .ok proc =>
    if (semiknown.map Prod.fst).any (fun v1 => (lookupKey proc v1).isSome) then
      .error "TypeError: cannot unpack non-iterable float object"
    else .ok proc

/-
`InflationSDP._calculate_inflation_symmetries` (`InflationSDP.py`, lines
1826-1867).  The loop body applies a source-copy permutation to the generating
columns (via `apply_source_permutation_coord_input`, a helper not present in
the sources; here each permuted column list is taken as an input) and then
calls `find_permutation(list_permuted, list_original)`; on failure it warns
(only when `self.verbose > 0`) and drops the symmetry.
-/

/-- First index of an element in a list (`list.index`); returns the length when
the element is absent. -/
def firstIdxG {α : Type} [DecidableEq α] : List α → α → ℕ
  | [], _ => 0
  | a :: rest, v => if a = v then 0 else firstIdxG rest v + 1

/-- Modelled from the spec: `find_permutation` (from `general_tools`, not under
the sources) computes, for each permuted generating column, its position among
the original columns, and raises when some permuted column is missing from the
original list ("the generator set must be closed under G; if not, a warning is
emitted and the missing orbit mates are treated as absent"). -/
def findPermutation {K : Type} [DecidableEq K] (permuted original : List K) :
    Except String (List ℕ) :=
  if permuted.all (fun x => decide (x ∈ original)) then
    .ok (permuted.map (fun x => firstIdxG original x))
  else .error "not a permutation"

/-- The warning text of `_calculate_inflation_symmetries`
(`InflationSDP.py`, lines 1864-1865). -/
def notClosedWarning : String :=
  "The generating set is not closed under source swaps.Some symmetries will not be implemented."

/-- The accumulation loop of `_calculate_inflation_symmetries`: for each
permuted column list, append `find_permutation`'s output or, on failure, emit
the warning only when `verbose > 0` and drop the symmetry. -/
def symLoop {K : Type} [DecidableEq K] (verbose : ℕ) (original : List K)
    (permutedLists : List (List K)) : List (List ℕ) × List String :=
  permutedLists.foldl (fun acc pl =>
    match findPermutation pl original with
    | .ok p => (acc.1 ++ [p], acc.2)
    | .error _ =>
      (acc.1, acc.2 ++ if verbose > 0 then [notClosedWarning] else [])) ([], [])

/-- The boolean lexicographic comparison on rows of naturals, used for
`np.unique(..., axis=0)`. -/
def lexLeN : List ℕ → List ℕ → Bool
  | [], _ => true
  | _ :: _, [] => false
  | x :: xs, y :: ys => if x = y then lexLeN xs ys else decide (x < y)

/-- The propositional form of `lexLeN`. -/
def LexLEN (a b : List ℕ) : Prop := lexLeN a b = true

instance : DecidableRel LexLEN := fun a b => inferInstanceAs (Decidable (lexLeN a b = true))

/-- Sorted deduplication of rows, as `np.unique(..., axis=0)` returns the
distinct rows in sorted order. -/
def uniqueRows (l : List (List ℕ)) : List (List ℕ) :=
  List.insertionSort LexLEN l.dedup

/-- `InflationSDP._calculate_inflation_symmetries`: run the loop and return the
distinct collected permutations together with the emitted warnings. -/
def calculateInflationSymmetries {K : Type} [DecidableEq K] (verbose : ℕ)
    (original : List K) (permutedLists : List (List K)) :
    List (List ℕ) × List String :=
  let (collected, warns) := symLoop verbose original permutedLists
  (uniqueRows collected, warns)

/-
Id assignment.  In the LP engine (`InflationLP._generate_lp`, lines 260-284)
the monomial built from the `idx`-th generating bit vector receives the index
`idx` itself, starting from 0; the first bit vector is blank, so the unit
monomial receives index 0 (the code asserts `self.monomials[0] == self.One`).
A monomial is modelled by its list of lexicographic operator positions
(`np.flatnonzero` of the bit vector); the factorisation into atoms performed by
`self.Monomial` does not affect which index is attached.
-/

/-- `np.flatnonzero` of a boolean vector. -/
def flatnonzero (bv : List Bool) : List ℕ :=
  (bv.enum.filter (fun p => p.2)).map Prod.fst

/-- The id-assignment loop of `InflationLP._generate_lp`: enumerate the
generating bit vectors and attach the position as the monomial index. -/
def lpAssignIndices (bvs : List (List Bool)) : List (List ℕ × ℕ) :=
  bvs.enum.map (fun p => (flatnonzero p.2, p.1))

/-- Modelled from the spec: the id assignment of `calculate_momentmatrix` (in
`fast_npa`, not under the sources) interns the distinct canonical monomials of
the moment matrix and assigns them ids contiguously starting at 2, ids 0 and 1
being reserved for the zero and unit monomials ("Reserved ids: 0 = zero,
1 = one.  Compound ids for all others are assigned contiguously starting
at 2"; the source keeps only entries with `idx >= 2` in
`idx_to_canonical_mon_dict`, `InflationSDP.py`, line 1822). -/
def assignIdsSDP {K : Type} [DecidableEq K] (mons : List K) : List (K × ℕ) :=
  mons.dedup.enum.map (fun p => (p.2, p.1 + 2))

/-
The atomic-monomial registry.
`InflationLP._AtomicMonomial` (`InflationLP.py`, lines 914-951): the monomial
is keyed by its boolean vector over the lexicographic operator order; on a
cache miss the whole orbit of the key under `self.lexorder_symmetries` is
computed (`key[self.lexorder_symmetries]`), sorted by `np.lexsort` on the bit
columns (primary key bit 0, ascending), the last row is taken as the
representative, and every orbit member's byte key is aliased to the one
interned atom.  The interned `InternalAtomicMonomial` is determined by the
representative vector, so it is modelled by that vector.
-/

/-- Fancy indexing `key[g]` of a boolean vector by an index array `g`:
entry `i` of the result is `key[g[i]]`. -/
def actPerm (g : List ℕ) (b : List Bool) : List Bool :=
  g.map (fun i => b.getD i false)

/-- Lexicographic comparison of boolean vectors read from position 0, with
`false < true`; this is the row order produced by
`np.lexsort(mon_as_symboolvec.T[::-1])`. -/
def lexLeB : List Bool → List Bool → Bool
  | [], _ => true
  | _ :: _, [] => false
  | x :: xs, y :: ys => if x = y then lexLeB xs ys else !x

/-- The propositional form of `lexLeB`. -/
def LexLEB (a b : List Bool) : Prop := lexLeB a b = true

instance : DecidableRel LexLEB := fun a b => inferInstanceAs (Decidable (lexLeB a b = true))

instance : IsRefl (List Bool) LexLEB where
  refl a := by
    induction a with
    | nil => rfl
    | cons x xs ih =>
      show lexLeB (x :: xs) (x :: xs) = true
      simp only [lexLeB, eq_self_iff_true, if_true]
      exact ih

instance : IsTotal (List Bool) LexLEB where
  total a b := by
    induction a generalizing b with
    | nil => exact Or.inl rfl
    | cons x xs ih =>
      cases b with
      | nil => exact Or.inr rfl
      | cons y ys =>
        by_cases hxy : x = y
        · subst hxy
          rcases ih ys with h | h
          · refine Or.inl ?_
            show lexLeB (x :: xs) (x :: ys) = true
            simp only [lexLeB, eq_self_iff_true, if_true]
            exact h
          · refine Or.inr ?_
            show lexLeB (x :: ys) (x :: xs) = true
            simp only [lexLeB, eq_self_iff_true, if_true]
            exact h
        · cases x <;> cases y <;> simp_all [LexLEB, lexLeB]

instance : IsTrans (List Bool) LexLEB where
  trans a b c hab hbc := by
    induction a generalizing b c with
    | nil => rfl
    | cons x xs ih =>
      cases b with
      | nil => exact absurd hab (by simp [LexLEB, lexLeB])
      | cons y ys =>
        cases c with
        | nil => exact absurd hbc (by simp [LexLEB, lexLeB])
        | cons z zs =>
          by_cases hxy : x = y <;> by_cases hyz : y = z
          · subst hxy
            subst hyz
            have hab2 : lexLeB xs ys = true := by
              have := hab
              simp only [LexLEB, lexLeB, eq_self_iff_true, if_true] at this
              exact this
            have hbc2 : lexLeB ys zs = true := by
              have := hbc
              simp only [LexLEB, lexLeB, eq_self_iff_true, if_true] at this
              exact this
            show lexLeB (x :: xs) (x :: zs) = true
            simp only [lexLeB, eq_self_iff_true, if_true]
            exact ih ys zs hab2 hbc2
          · subst hxy
            cases x <;> cases z <;> simp_all [LexLEB, lexLeB]
          · subst hyz
            cases x <;> cases y <;> simp_all [LexLEB, lexLeB]
          · cases x <;> cases y <;> cases z <;> simp_all [LexLEB, lexLeB]

instance : IsAntisymm (List Bool) LexLEB where
  antisymm a b hab hba := by
    induction a generalizing b with
    | nil =>
      cases b with
      | nil => rfl
      | cons y ys => exact absurd hba (by simp [LexLEB, lexLeB])
    | cons x xs ih =>
      cases b with
      | nil => exact absurd hab (by simp [LexLEB, lexLeB])
      | cons y ys =>
        by_cases hxy : x = y
        · subst hxy
          have hab2 : lexLeB xs ys = true := by
            have := hab
            simp only [LexLEB, lexLeB, eq_self_iff_true, if_true] at this
            exact this
          have hba2 : lexLeB ys xs = true := by
            have := hba
            simp only [LexLEB, lexLeB, eq_self_iff_true, if_true] at this
            exact this
          rw [ih ys hab2 hba2]
        · cases x <;> cases y <;> simp_all [LexLEB, lexLeB]

/-- The orbit `key[self.lexorder_symmetries]` of a monomial key under the
lexicographic-order symmetries (one row per symmetry, duplicates kept). -/
def orbitOf (syms : List (List ℕ)) (key : List Bool) : List (List Bool) :=
  syms.map (fun g => actPerm g key)

/-- The orbit rows sorted as by `np.lexsort` (ascending, stable). -/
def sortedOrbit (syms : List (List ℕ)) (key : List Bool) : List (List Bool) :=
  List.insertionSort LexLEB (orbitOf syms key)

/-- The representative choice of `_AtomicMonomial`: the last row
`mon_as_symboolvec[-1]` of the sorted orbit. -/
def orbitRep (syms : List (List ℕ)) (key : List Bool) : List Bool :=
  (sortedOrbit syms key).getLastD key

/-- The cache `self.atomic_monomial_from_hash`, mapping byte keys to the
interned atom (represented by its canonical vector). -/
abbrev AtomCache : Type := List (List Bool × List Bool)

/-- `InflationLP._AtomicMonomial`: cache hit returns the stored atom; on a miss
with a trivial symmetry group the key itself is interned; otherwise the orbit
is computed, its lexsort-last row interned, and every orbit member aliased to
it. -/
def lpAtomicMonomial (syms : List (List ℕ)) (cache : AtomCache) (key : List Bool) :
    List Bool × AtomCache :=
  match lookupKey cache key with
  | some rep => (rep, cache)
  | none =>
    if syms.length = 1 then
      (key, (key, key) :: cache)
    else
      let rep := orbitRep syms key
      (rep, ((sortedOrbit syms key).map (fun alt => (alt, rep))) ++ cache)

/-
`InflationSDP.AtomicMonomial` (`InflationSDP.py`, lines 155-183) with its two
caches `atomic_monomial_from_hash_cache` and `canonsym_ndarray_from_hash_cache`.
Atoms are Python objects; object identity is modelled by pairing the canonical
array key with an allocation counter, incremented at each
`InternalAtomicMonomial(...)` construction.  The function
`inflation_aware_to_ndarray_representative` lives in `general_tools`, which is
not under the sources; it is abstracted as the argument `repF` (the spec
guarantees it is constant on symmetry orbits), the input key being assumed
already canonical and neither empty nor zero (the `len(array2d) == 0 or
np.array_equiv(array2d, 0)` special case is elided).  Both that helper and
`AtomicMonomial` insert the queried key and the representative key — and only
those — into `canonsym_ndarray_from_hash_cache`.
-/

/-- The caches and the allocation counter of the SDP atomic-monomial registry. -/
structure SdpAtomCaches (K : Type) where
  canonsym : List (K × K)
  atomic : List (K × (K × ℕ))
  counter : ℕ
deriving DecidableEq, Repr

/-- `InflationSDP.AtomicMonomial`, returning the atom (canonical key and
allocation id) together with the updated caches. -/
def sdpAtomicMonomial {K : Type} [DecidableEq K] (repF : K → K)
    (caches : SdpAtomCaches K) (key : K) : (K × ℕ) × SdpAtomCaches K :=
  match lookupKey caches.atomic key with
  | some mon => (mon, caches)
  | none =>
    match lookupKey caches.canonsym key with
    | some repA =>
      match lookupKey caches.atomic repA with
      | some mon => (mon, { caches with atomic := (key, mon) :: caches.atomic })
      | none =>
        let mon := (repA, caches.counter)
        (mon, { caches with
                atomic := (repA, mon) :: (key, mon) :: caches.atomic
                counter := caches.counter + 1 })
    | none =>
      let repA := repF key
      let mon := (repA, caches.counter)
      (mon, { canonsym := (repA, repA) :: (key, repA) :: caches.canonsym
              atomic := (repA, mon) :: (key, mon) :: caches.atomic
              counter := caches.counter + 1 })

/-
`InflationSDP._apply_inflation_symmetries` (`InflationSDP.py`, lines
1869-1932), default `conserve_memory=False` branch.  Matrices are lists of
rows; `momentmatrix.flat` is the row-major join.  The steps are: (1) for each
listed permutation, in sequence, replace the matrix by its elementwise minimum
with the permuted matrix `arr[perm][:, perm]`; (2) build the `orbits` array,
indexed by id value (the ids of the moment matrix are contiguous), whose entry
at a present value `v` is the minimised entry at the first flat occurrence of
`v` and whose entries below the minimum id are the identity (`np.arange`);
(3) follow the orbit map to a fixed point in place, key by key (each write
stores the key's own fixed point, so the in-place reads never change another
key's fixed point); (4) compact the surviving ids by their rank among the
sorted distinct survivors (`np.unique` with `return_inverse`) and apply the
resulting relabelling to the original moment matrix.
-/

/-- Entry `A[i][j]` of a list-of-rows matrix, defaulting to 0. -/
def entryM (M : List (List ℕ)) (i j : ℕ) : ℕ :=
  (M.getD i []).getD j 0

/-- Fancy indexing `A[perm][:, perm]`: entry `(i, j)` is `A[perm[i], perm[j]]`. -/
def permutedMatrix (p : List ℕ) (A : List (List ℕ)) : List (List ℕ) :=
  p.map (fun i => p.map (fun j => entryM A i j))

/-- Elementwise `np.minimum` of two matrices. -/
def minMatrix (A B : List (List ℕ)) : List (List ℕ) :=
  List.zipWith (List.zipWith Nat.min) A B

/-- One symmetrisation pass: `np.minimum(arr, arr[perm].T[perm].T, out=arr)`. -/
def symPass (A : List (List ℕ)) (p : List ℕ) : List (List ℕ) :=
  minMatrix A (permutedMatrix p A)

/-- The sequential minimum passes over all listed permutations. -/
def symmetrizedArr (M : List (List ℕ)) (perms : List (List ℕ)) : List (List ℕ) :=
  perms.foldl symPass M

/-- `np.unique` of a flat value list: the distinct values in increasing order. -/
def uniqueSorted (l : List ℕ) : List ℕ :=
  List.insertionSort (· ≤ ·) l.dedup

/-- `np.min` of a flat value list. -/
def minValL : List ℕ → ℕ
  | [] => 0
  | a :: t => t.foldl Nat.min a

/-- The initial `orbits` array:
`np.concatenate((absent_indices, symmetric_arr.flat[where_it_matters_flat]))` —
the identity below the minimum id, then, for each distinct id in increasing
order, the minimised entry at its first flat occurrence in the original
matrix. -/
def orbitsInit (M : List (List ℕ)) (perms : List (List ℕ)) : List ℕ :=
  (List.range (minValL M.flatten))
    ++ (uniqueSorted M.flatten).map
        (fun v => ((symmetrizedArr M perms).flatten).getD (firstIdxG M.flatten v) 0)

/-- Following the orbit map until two consecutive values agree (the `while
changed` loop); the fuel bounds the number of steps. -/
def chaseFuelL (s : List ℕ) : ℕ → ℕ → ℕ
  | 0, v => v
  | fuel + 1, v => if s.getD v v = v then v else chaseFuelL s fuel (s.getD v v)

/-- The in-place chasing loop `for key, val in enumerate(orbits): ...`;
each key is replaced by its fixed point under the current array. -/
def chaseLoop (s : List ℕ) : List ℕ :=
  (List.range s.length).foldl
    (fun cur k => cur.set k (chaseFuelL cur (cur.length + 1) k)) s

/-- The state of the chasing loop after its first `k` iterations
(`chaseLoop` is `chaseLoopAux` at `k = s0.length`); used to state the loop
invariant. -/
def chaseLoopAux (s0 : List ℕ) (k : ℕ) : List ℕ :=
  (List.range k).foldl
    (fun cur i => cur.set i (chaseFuelL cur (cur.length + 1) i)) s0

/-- `InflationSDP._apply_inflation_symmetries`: the returned symmetrised
matrix `unsym_idx_to_sym_idx.take(momentmatrix)`, each original id replaced by
the rank of its chased representative among the sorted surviving ids. -/
def applyInflationSymmetries (M : List (List ℕ)) (perms : List (List ℕ)) :
    List (List ℕ) :=
  let orb := chaseLoop (orbitsInit M perms)
  let survivors := uniqueSorted orb
  M.map (fun row => row.map (fun v => firstIdxG survivors (orb.getD v v)))

/-- A 4x4 moment matrix with contiguous ids 0..15 on which the permutation
`[1, 2, 3, 0]` acts as an id relabelling (the matrix satisfies
`M[p[i], p[j]] = tau(M[i, j])` for a value permutation `tau`), yet the
symmetrised output is not invariant under the permutation. -/
def counterexampleMomentMatrix : List (List ℕ) :=
  [[0, 2, 4, 12], [13, 5, 7, 9], [10, 14, 1, 3], [8, 11, 15, 6]]

/-- Cartesian product of a list of lists, in `itertools.product` order. -/
def cartProd {α : Type} : List (List α) → List (List α)
  | [] => [[]]
  | l :: ls => (l.map (fun x => (cartProd ls).map (fun t => x :: t))).flatten

/-- The copy indices available to a party on one source: `1..n` when the
hypergraph connects them, the placeholder `0` otherwise
(`InflationSDP._generate_parties`, lines 1774-1793). -/
def copiesFor (connected : Bool) (n : ℕ) : List ℕ :=
  if connected then (List.range n).map (fun i => i + 1) else [0]

/-- The flattened measurement-operator list of one party in the numeric form
`[party, copies..., setting, outcome]`, for a single setting and one
Collins-Gisin outcome (`InflationSDP._generate_parties`; the numeric party
index is 1-based, copy tuples are produced in ascending product order). -/
def partyOps (hypergraph : List (List Bool)) (infl : List ℕ) (p : ℕ) :
    List (List ℕ) :=
  (cartProd (List.zipWith (fun row n => copiesFor (row.getD p false) n)
      hypergraph infl)).map
    (fun cs => (p + 1) :: (cs ++ [0, 0]))

/-- The bilocal hypergraph: source 1 feeds parties 1 and 2, source 2 feeds
parties 2 and 3 (`bilocalDAG = {h1: [v1, v2], h2: [v2, v3]}`). -/
def bilocalHypergraph : List (List Bool) :=
  [[true, true, false], [false, true, true]]

/-- Two copies of each of the two sources. -/
def bilocalInflation : List ℕ := [2, 2]

/-- The flattened per-party measurement lists of the bilocal scenario with
single settings and binary outcomes in Collins-Gisin form. -/
def bilocalMeasurements : List (List (List ℕ)) :=
  (List.range 3).map (partyOps bilocalHypergraph bilocalInflation)

/-- Modelled from the spec: the commutation oracle (`nb_operators_commute`
from `fast_npa`, not under the sources). Two operators commute iff they
belong to different parties or their inflation-copy supports are disjoint:
every source consumed by both is consumed through different copies. (The
in-repo test `test_sdp.py` pins this reading: its expected `npa2` column
list keeps both orders exactly for the same-party pairs sharing a copy
index on some source.) -/
def opsCommute (nSources : ℕ) (a b : List ℕ) : Bool :=
  decide (a.getD 0 0 ≠ b.getD 0 0)
    || (List.range nSources).all (fun k =>
          decide (a.getD (k + 1) 0 = 0) || decide (b.getD (k + 1) 0 = 0)
            || decide (a.getD (k + 1) 0 ≠ b.getD (k + 1) 0))

/-- The global lexicographic order of operators: the flattened measurement
lists in party-major order; an operator rank is its first index there. -/
def bilocalLexorder : List (List ℕ) := bilocalMeasurements.flatten

/-- Modelled from the spec: one pass of the local rewrite rules of the
canonicalizer (section 4.C). Adjacent identical operators collapse to one
(idempotence); adjacent commuting operators with ranks out of order swap
(commutation sort); in the commuting model every pair is sortable.
Orthogonality is detected by `monIsZero` after rewriting. -/
def canonPassAux (lexorder : List (List ℕ)) (nSources : ℕ) (commuting : Bool)
    (x : List ℕ) : List (List ℕ) → List (List ℕ)
  | [] => [x]
  | y :: rest =>
    if x = y then canonPassAux lexorder nSources commuting x rest
    else if (commuting || opsCommute nSources x y)
        && decide (firstIdxG lexorder y < firstIdxG lexorder x) then
      y :: canonPassAux lexorder nSources commuting x rest
    else x :: canonPassAux lexorder nSources commuting y rest

/-- The rewrite pass on a whole monomial. -/
def canonPass (lexorder : List (List ℕ)) (nSources : ℕ) (commuting : Bool) :
    List (List ℕ) → List (List ℕ)
  | [] => []
  | x :: rest => canonPassAux lexorder nSources commuting x rest

/-- Modelled from the spec: the rewrite rules applied to fixed point, with
fuel bounding the number of passes (each pass either shortens the sequence
or lexicographically decreases the rank tuple, so quadratic fuel
suffices for the inputs used here). -/
def toCanonicalFuel (lexorder : List (List ℕ)) (nSources : ℕ)
    (commuting : Bool) : ℕ → List (List ℕ) → List (List ℕ)
  | 0, m => m
  | fuel + 1, m =>
    let m2 := canonPass lexorder nSources commuting m
    if m2 = m then m else toCanonicalFuel lexorder nSources commuting fuel m2

/-- Modelled from the spec: `to_canonical` from `fast_npa` (not under the
sources); in the commuting model this reduces to sorting by rank plus
adjacent deduplication, which is what
`remove_projector_squares(mon_lexsorted(mon))` computes. -/
def toCanonical (lexorder : List (List ℕ)) (nSources : ℕ) (commuting : Bool)
    (m : List (List ℕ)) : List (List ℕ) :=
  toCanonicalFuel lexorder nSources commuting (m.length * m.length + 1) m

/-- Modelled from the spec: `mon_is_zero` — some adjacent pair has identical
party, copies and setting but distinct outcomes (orthogonal projectors). -/
def monIsZeroAux (x : List ℕ) : List (List ℕ) → Bool
  | [] => false
  | y :: rest =>
    (decide (x.dropLast = y.dropLast) && decide (x ≠ y)) || monIsZeroAux y rest

/-- The zero test on a whole monomial. -/
def monIsZero : List (List ℕ) → Bool
  | [] => false
  | x :: rest => monIsZeroAux x rest

/-- `InflationSDP._build_cols_from_specs` (lines 1714-1751): for each block
of party indices, every product of measurement operators of the listed
parties is canonicalized; zero results are dropped, results whose length
shrank are dropped (their shorter form belongs to an earlier block), and the
rest are appended when not yet present. The empty block contributes the
identity (here the empty monomial). -/
def buildColsFromSpecs (measurements : List (List (List ℕ)))
    (lexorder : List (List ℕ)) (nSources : ℕ) (commuting : Bool)
    (colSpecs : List (List ℕ)) : List (List (List ℕ)) :=
  colSpecs.foldl
    (fun res block =>
      if block.isEmpty then res ++ [[]]
      else
        (cartProd (block.map (fun p => measurements.getD p []))).foldl
          (fun res2 mon =>
            let canon := toCanonical lexorder nSources commuting mon
            if monIsZero canon then res2
            else if canon.length = mon.length ∧ canon ∉ res2 then
              res2 ++ [canon]
            else res2)
          res)
    []

/-- A party tuple is kept only if it is sorted (`np.all(a[:-1] <= a[1:])`). -/
def isNonDecreasingAux (a : ℕ) : List ℕ → Bool
  | [] => true
  | b :: t => decide (a ≤ b) && isNonDecreasingAux b t

/-- The sortedness test on a whole tuple. -/
def isNonDecreasing : List ℕ → Bool
  | [] => true
  | a :: t => isNonDecreasingAux a t

/-- The `npaN` column specification (`InflationSDP.build_columns`, npa
branch, lines 1509-1525): the empty block followed by, for each length up to
the level, all non-decreasing party tuples of that length in generation
order. -/
def npaColSpecs (nrParties level : ℕ) : List (List ℕ) :=
  [] :: ((List.range level).map (fun len =>
    (cartProd (List.replicate (len + 1) (List.range nrParties))).filter
      isNonDecreasing)).flatten

/-- The npa2 generating set of the bilocal scenario, for either commutation
model. -/
def bilocalColumns (commuting : Bool) : List (List (List ℕ)) :=
  buildColsFromSpecs bilocalMeasurements bilocalLexorder 2 commuting
    (npaColSpecs 3 2)

-- ===================== THEOREMS =====================

/-- Claim C10: when a plain number is supplied where a monomial is expected,
sanitisation accepts only the reserved constants: in `InflationSDP` a number
close to 1 yields the unit, a number close to 0 yields the zero monomial, and
any other number raises; in `InflationLP` only a number close to 1 is accepted
and every other number, including 0, raises. -/
theorem sanitise_number_reserved_constants (nrSources : ℕ) (x : ℚ) :
    (npIsClose x 1 = true →
      sdpSanitiseNumber nrSources x = .ok sdpOne ∧ lpSanitiseNumber x = .ok lpOneMon)
    ∧ (npIsClose x 1 = false → npIsClose x 0 = true →
      sdpSanitiseNumber nrSources x = .ok (sdpZero nrSources)
        ∧ isErr (lpSanitiseNumber x) = true)
    ∧ (npIsClose x 1 = false → npIsClose x 0 = false →
      isErr (sdpSanitiseNumber nrSources x) = true
        ∧ isErr (lpSanitiseNumber x) = true) := by
  refine ⟨fun h1 => ?_, fun h1 h0 => ?_, fun h1 h0 => ?_⟩ <;>
    simp [sdpSanitiseNumber, lpSanitiseNumber, isErr, h1] <;>
    simp [h0]

/-- Witness for C10 at the concrete input 0: `InflationSDP` returns the zero
monomial while `InflationLP` raises. -/
theorem sanitise_number_reserved_constants_witness :
    npIsClose (0 : ℚ) 1 = false ∧ npIsClose (0 : ℚ) 0 = true ∧
      (sdpSanitiseNumber 2 0 = .ok (sdpZero 2) ∧ isErr (lpSanitiseNumber 0) = true) :=
  ⟨by norm_num [npIsClose], by norm_num [npIsClose],
    (sanitise_number_reserved_constants 2 0).2.1 (by norm_num [npIsClose])
      (by norm_num [npIsClose])⟩

-- Association-list helper lemmas.

theorem orElseOpt_none_right {α : Type} (o : Option α) : orElseOpt o none = o := by
  cases o <;> rfl

theorem lookupKey_append {K V : Type} [DecidableEq K] (l1 l2 : List (K × V)) (k : K) :
    lookupKey (l1 ++ l2) k = orElseOpt (lookupKey l1 k) (lookupKey l2 k) := by
  induction l1 with
  | nil => simp [lookupKey, orElseOpt]
  | cons p rest ih =>
    obtain ⟨a, b⟩ := p
    by_cases h : k = a <;> simp [lookupKey, h, ih, orElseOpt]

theorem lookupKey_upsert_self {K V : Type} [DecidableEq K] (l : List (K × V)) (k : K) (v : V) :
    lookupKey (upsertKey l k v) k = some v := by
  induction l with
  | nil => simp [upsertKey, lookupKey]
  | cons p rest ih =>
    obtain ⟨a, b⟩ := p
    by_cases h : k = a <;> simp [upsertKey, lookupKey, h, ih]

theorem lookupKey_upsert_ne {K V : Type} [DecidableEq K] (l : List (K × V)) {k k2 : K}
    (v : V) (h : k2 ≠ k) : lookupKey (upsertKey l k v) k2 = lookupKey l k2 := by
  induction l with
  | nil => simp [upsertKey, lookupKey, h]
  | cons p rest ih =>
    obtain ⟨a, b⟩ := p
    by_cases ha : k = a
    · subst ha
      simp [upsertKey, lookupKey, h]
    · by_cases hb : k2 = a <;> simp [upsertKey, lookupKey, ha, hb, ih]

theorem foldl_upsert_const {K V : Type} [DecidableEq K] (c : V) (ms : List K)
    (l0 : List (K × V)) (m : K) :
    lookupKey (ms.foldl (fun l k => upsertKey l k c) l0) m
      = if m ∈ ms then some c else lookupKey l0 m := by
  induction ms generalizing l0 with
  | nil => simp
  | cons k ks ih =>
    simp only [List.foldl_cons, ih]
    by_cases hm : m ∈ ks
    · simp [hm]
    · by_cases hk : m = k
      · subst hk
        simp [hm, lookupKey_upsert_self]
      · simp [hm, hk, lookupKey_upsert_ne _ _ hk]

theorem lookupKey_eq_none_of_not_mem {K V : Type} [DecidableEq K] {l : List (K × V)} {m : K}
    (h : m ∉ l.map Prod.fst) : lookupKey l m = none := by
  induction l with
  | nil => rfl
  | cons p rest ih =>
    obtain ⟨a, b⟩ := p
    simp only [List.map_cons, List.mem_cons] at h
    push_neg at h
    simp [lookupKey, h.1, ih h.2]

theorem not_mem_of_lookupKey_none {K V : Type} [DecidableEq K] {l : List (K × V)} {m : K}
    (h : lookupKey l m = none) : m ∉ l.map Prod.fst := by
  induction l with
  | nil => simp
  | cons p rest ih =>
    obtain ⟨a, b⟩ := p
    by_cases ha : m = a
    · subst ha
      simp [lookupKey] at h
    · simp only [lookupKey, ha, if_false] at h
      simp [ha, ih h]

theorem mem_of_lookupKey_some {K V : Type} [DecidableEq K] {l : List (K × V)} {m : K} {v : V}
    (h : lookupKey l m = some v) : (m, v) ∈ l := by
  induction l with
  | nil => simp [lookupKey] at h
  | cons p rest ih =>
    obtain ⟨a, b⟩ := p
    by_cases ha : m = a
    · subst ha
      have hb : b = v := by simpa [lookupKey] using h
      subst hb
      exact List.mem_cons_self _ _
    · simp only [lookupKey, ha, if_false] at h
      exact List.mem_cons_of_mem _ (ih h)

theorem lookupKey_filter {K V : Type} [DecidableEq K] {l : List (K × V)}
    (hnd : (l.map Prod.fst).Nodup) {m : K} {v : V} (hv : lookupKey l m = some v)
    (p : K × V → Bool) :
    lookupKey (l.filter p) m = if p (m, v) then some v else none := by
  induction l with
  | nil => simp [lookupKey] at hv
  | cons q rest ih =>
    obtain ⟨a, b⟩ := q
    simp only [List.map_cons, List.nodup_cons] at hnd
    by_cases h : m = a
    · subst h
      have hb : b = v := by simpa [lookupKey] using hv
      subst hb
      have hrest : lookupKey (rest.filter p) m = none := by
        refine lookupKey_eq_none_of_not_mem ?_
        intro hmem
        refine hnd.1 ?_
        obtain ⟨q, hq, hq2⟩ := List.mem_map.mp hmem
        exact List.mem_map.mpr ⟨q, (List.mem_filter.mp hq).1, hq2⟩
      by_cases hp : p (m, b) <;> simp [List.filter_cons, hp, lookupKey, hrest]
    · have hv2 : lookupKey rest m = some v := by
        simpa [lookupKey, h] using hv
      by_cases hp : p (a, b) <;> simp [List.filter_cons, hp, lookupKey, h, ih hnd.2 hv2]

-- The reflexivity of numerical closeness.

theorem npIsClose_refl (b : ℚ) : npIsClose b b = true := by
  simp only [npIsClose, sub_self, abs_zero, decide_eq_true_eq]
  positivity

-- Lemmas about the bound-sanitisation loop of `_set_upperbounds` / `_set_lowerbounds`.

theorem bounds_loop_ok_lookup {K : Type} [DecidableEq K] :
    ∀ (rest acc d : List (K × ℚ)), sanitizeBoundsLoop rest acc = .ok d →
      ∀ m, lookupKey d m = orElseOpt (lookupKey acc m) (lookupKey rest m) := by
  intro rest
  induction rest with
  | nil =>
    intro acc d h m
    simp only [sanitizeBoundsLoop, Except.ok.injEq] at h
    subst h
    simp [lookupKey, orElseOpt_none_right]
  | cons q rest ih =>
    intro acc d h m
    obtain ⟨k, b⟩ := q
    rcases hk : lookupKey acc k with _ | old
    · simp only [sanitizeBoundsLoop, hk] at h
      have := ih _ _ h m
      rw [this, lookupKey_append]
      by_cases hm : m = k
      · subst hm
        simp [hk, lookupKey, orElseOpt]
      · simp [lookupKey, hm, orElseOpt_none_right]
    · simp only [sanitizeBoundsLoop, hk] at h
      by_cases hc : npIsClose old b
      · rw [if_pos hc] at h
        have := ih _ _ h m
        rw [this]
        by_cases hm : m = k
        · subst hm
          simp [hk, lookupKey, orElseOpt]
        · simp [lookupKey, hm]
      · rw [if_neg hc] at h
        cases h

theorem bounds_loop_ok_nodup {K : Type} [DecidableEq K] :
    ∀ (rest acc d : List (K × ℚ)), sanitizeBoundsLoop rest acc = .ok d →
      (acc.map Prod.fst).Nodup → (d.map Prod.fst).Nodup := by
  intro rest
  induction rest with
  | nil =>
    intro acc d h hacc
    simp only [sanitizeBoundsLoop, Except.ok.injEq] at h
    subst h
    exact hacc
  | cons q rest ih =>
    intro acc d h hacc
    obtain ⟨k, b⟩ := q
    rcases hk : lookupKey acc k with _ | old
    · simp only [sanitizeBoundsLoop, hk] at h
      refine ih _ _ h ?_
      have hknot : k ∉ acc.map Prod.fst := not_mem_of_lookupKey_none hk
      have hnd2 : (acc.map Prod.fst ++ [k]).Nodup := by
        refine List.Nodup.append hacc (List.nodup_singleton k) ?_
        intro a ha hak
        rw [List.mem_singleton] at hak
        subst hak
        exact hknot ha
      simpa using hnd2
    · simp only [sanitizeBoundsLoop, hk] at h
      by_cases hc : npIsClose old b
      · rw [if_pos hc] at h
        exact ih _ _ h hacc
      · rw [if_neg hc] at h
        cases h

theorem bounds_loop_err {K : Type} [DecidableEq K] :
    ∀ (rest acc : List (K × ℚ)) (m : K) (b1 b2 : ℚ),
      orElseOpt (lookupKey acc m) (lookupKey rest m) = some b1 → (m, b2) ∈ rest →
      npIsClose b1 b2 = false → isErr (sanitizeBoundsLoop rest acc) = true := by
  intro rest
  induction rest with
  | nil =>
    intro acc m b1 b2 _ hmem _
    simp at hmem
  | cons q rest ih =>
    intro acc m b1 b2 hfirst hmem hfar
    obtain ⟨k, c⟩ := q
    rcases hk : lookupKey acc k with _ | old
    · simp only [sanitizeBoundsLoop, hk]
      rcases List.mem_cons.mp hmem with hhead | htail
      · obtain ⟨hm, hb⟩ := Prod.mk.injEq .. ▸ hhead
        exfalso
        have h2 := hfirst
        rw [hm] at h2
        rw [hk] at h2
        simp only [orElseOpt, lookupKey, if_true, eq_self_iff_true] at h2
        have hceq : c = b1 := Option.some.inj h2
        rw [hb, ← hceq, npIsClose_refl] at hfar
        cases hfar
      · refine ih (acc ++ [(k, c)]) m b1 b2 ?_ htail hfar
        rw [lookupKey_append]
        by_cases hm : m = k
        · subst hm
          rw [hk] at hfirst ⊢
          simpa [lookupKey, orElseOpt] using hfirst
        · simpa [lookupKey, hm, orElseOpt_none_right] using hfirst
    · simp only [sanitizeBoundsLoop, hk]
      by_cases hc : npIsClose old c
      · rw [if_pos hc]
        rcases List.mem_cons.mp hmem with hhead | htail
        · obtain ⟨hm, hb⟩ := Prod.mk.injEq .. ▸ hhead
          exfalso
          have h2 := hfirst
          rw [hm] at h2
          rw [hk] at h2
          simp only [orElseOpt] at h2
          have hoeq : old = b1 := Option.some.inj h2
          rw [hb, ← hoeq, hc] at hfar
          cases hfar
        · refine ih acc m b1 b2 ?_ htail hfar
          by_cases hm : m = k
          · subst hm
            rw [hk] at hfirst ⊢
            simpa [orElseOpt] using hfirst
          · simpa [lookupKey, hm] using hfirst
      · rw [if_neg hc]
        rfl

/-- Claim C8 (amended): in `_set_upperbounds` / `_set_lowerbounds`, a bound
that is not numerically close to the first-stored bound of the same monomial
raises an error; on success the stored dictionary binds each monomial exactly
once, to its first supplied bound; the lower-bound routine is the same
computation as the upper-bound routine. -/
theorem set_bounds_contradiction (K : Type) [DecidableEq K]
    (items : List (K × ℚ)) (m : K) (b1 b2 : ℚ) :
    (lookupKey items m = some b1 → (m, b2) ∈ items → npIsClose b1 b2 = false →
      isErr (lpSetUpperbounds items) = true ∧ isErr (lpSetLowerbounds items) = true)
    ∧ (∀ d, lpSetUpperbounds items = .ok d →
        (d.map Prod.fst).Nodup ∧ ∀ k, lookupKey d k = lookupKey items k)
    ∧ lpSetLowerbounds items = lpSetUpperbounds items := by
  refine ⟨fun hfirst hmem hfar => ?_, fun d hd => ?_, rfl⟩
  · have : isErr (sanitizeBoundsLoop items ([] : List (K × ℚ))) = true := by
      refine bounds_loop_err items [] m b1 b2 ?_ hmem hfar
      simpa [lookupKey, orElseOpt] using hfirst
    exact ⟨this, this⟩
  · refine ⟨bounds_loop_ok_nodup items [] d hd (by simp), fun k => ?_⟩
    have := bounds_loop_ok_lookup items [] d hd k
    simpa [lookupKey, orElseOpt] using this

/-- Counterexample for C8 as stated: a dictionary whose three keys sanitise to
the same monomial, with pairwise non-close bounds `1 + 1e-5` and `1 - 1e-5`,
both close to the first bound `1`; the call succeeds instead of raising. -/
theorem set_bounds_counterexample :
    lpSetUpperbounds [((0 : ℕ), (1 : ℚ)), (0, 1 + 1 / 100000), (0, 1 - 1 / 100000)]
        = .ok [(0, 1)]
    ∧ npIsClose (1 + 1 / 100000) (1 - 1 / 100000) = false := by
  constructor
  · have h1 : npIsClose 1 (1 + 1 / 100000) = true := by
      norm_num [npIsClose, abs_of_pos, abs_of_nonneg]
    have h2 : npIsClose 1 (1 - 1 / 100000) = true := by
      norm_num [npIsClose, abs_of_pos, abs_of_nonneg]
    simp only [lpSetUpperbounds, sanitizeBoundsLoop, lookupKey, List.nil_append,
      eq_self_iff_true, if_true, h1, h2]
  · norm_num [npIsClose, abs_of_pos, abs_of_nonneg]

/-- Witness for the amended C8 at a concrete contradictory dictionary. -/
theorem set_bounds_contradiction_witness :
    lookupKey [((0 : ℕ), (1 : ℚ)), (0, 2)] 0 = some 1
    ∧ ((0 : ℕ), (2 : ℚ)) ∈ [((0 : ℕ), (1 : ℚ)), (0, 2)]
    ∧ npIsClose 1 2 = false
    ∧ isErr (lpSetUpperbounds [((0 : ℕ), (1 : ℚ)), (0, 2)]) = true := by
  have hfar : npIsClose (1 : ℚ) 2 = false := by
    norm_num [npIsClose, abs_of_pos, abs_of_nonneg]
  exact ⟨rfl, by simp, hfar,
    ((set_bounds_contradiction ℕ [((0 : ℕ), (1 : ℚ)), (0, 2)] 0 1 2).1 rfl (by simp) hfar).1⟩

/-- Claim C5: under a supports problem, the cleanup run at the end of every
`set_values` / `set_distribution` call removes each known moment whose value is
not close to 0 from the known moments, gives it the lower bound exactly 1, and
empties the semiknown relations; known moments with value close to 0 remain.
Both the SDP and the LP cleanup are covered. -/
theorem supports_problem_cleanup (K : Type) [DecidableEq K] (s : MomentState K)
    (m : K) (v : ℚ) (hnd : (s.known.map Prod.fst).Nodup)
    (hv : lookupKey s.known m = some v) :
    (npIsClose v 0 = false →
      lookupKey (sdpCleanupAfterSetValues true s).known m = none
      ∧ lookupKey (sdpCleanupAfterSetValues true s).lower m = some 1
      ∧ lookupKey (lpCleanupAfterSetValues true s).known m = none
      ∧ lookupKey (lpCleanupAfterSetValues true s).lower m = some 1)
    ∧ (npIsClose v 0 = true →
      lookupKey (sdpCleanupAfterSetValues true s).known m = some v
      ∧ lookupKey (lpCleanupAfterSetValues true s).known m = some v)
    ∧ (sdpCleanupAfterSetValues true s).semiknown = []
    ∧ (lpCleanupAfterSetValues true s).semiknown = [] := by
  have hknown : ∀ p : K × ℚ → Bool,
      lookupKey (s.known.filter p) m = if p (m, v) then some v else none :=
    fun p => lookupKey_filter hnd hv p
  have hlow : npIsClose v 0 = false →
      lookupKey ((supportsBranch s).lower) m = some 1 := by
    intro hnz
    have hmem : m ∈ (s.known.filter (fun p => !npIsClose p.2 0)).map Prod.fst := by
      refine List.mem_map.mpr ⟨(m, v), ?_, rfl⟩
      exact List.mem_filter.mpr ⟨mem_of_lookupKey_some hv, by simp [hnz]⟩
    simp only [supportsBranch]
    rw [foldl_upsert_const]
    simp [hmem]
  have hself := hknown (fun p => npIsClose p.2 0)
  refine ⟨fun hnz => ?_, fun hz => ?_, rfl, rfl⟩
  · refine ⟨?_, ?_, ?_, ?_⟩
    · simpa [sdpCleanupAfterSetValues, supportsBranch, hnz] using hself
    · simpa [sdpCleanupAfterSetValues] using hlow hnz
    · simpa [lpCleanupAfterSetValues, supportsBranch, hnz] using hself
    · simpa [lpCleanupAfterSetValues, supportsBranch] using hlow hnz
  · constructor
    · simpa [sdpCleanupAfterSetValues, supportsBranch, hz] using hself
    · simpa [lpCleanupAfterSetValues, supportsBranch, hz] using hself

/-- Witness for C5 on a concrete supports-problem state: the known moment with
value 1/2 moves to a lower bound of 1, the moment with value 0 stays known, and
the semiknown relations are emptied. -/
theorem supports_problem_cleanup_witness :
    lookupKey [((5 : ℕ), (1 / 2 : ℚ)), (7, 0)] 5 = some (1 / 2)
    ∧ npIsClose (1 / 2) 0 = false
    ∧ (lookupKey (sdpCleanupAfterSetValues true
        (MomentState.mk [((5 : ℕ), (1 / 2 : ℚ)), (7, 0)] [(9, (1 / 3, 5))] [])).known 5 = none
      ∧ lookupKey (sdpCleanupAfterSetValues true
        (MomentState.mk [((5 : ℕ), (1 / 2 : ℚ)), (7, 0)] [(9, (1 / 3, 5))] [])).lower 5 = some 1
      ∧ lookupKey (lpCleanupAfterSetValues true
        (MomentState.mk [((5 : ℕ), (1 / 2 : ℚ)), (7, 0)] [(9, (1 / 3, 5))] [])).known 5 = none
      ∧ lookupKey (lpCleanupAfterSetValues true
        (MomentState.mk [((5 : ℕ), (1 / 2 : ℚ)), (7, 0)] [(9, (1 / 3, 5))] [])).lower 5 = some 1) := by
  have hnz : npIsClose (1 / 2 : ℚ) 0 = false := by
    norm_num [npIsClose, abs_of_pos, abs_of_nonneg]
  exact ⟨rfl, hnz,
    (supports_problem_cleanup ℕ
      (MomentState.mk [((5 : ℕ), (1 / 2 : ℚ)), (7, 0)] [(9, (1 / 3, 5))] [])
      5 (1 / 2) (by simp) rfl).1 hnz⟩

/-- Claim C6 (the code at the claimed behavior): the known-value part of
`_update_objective` does substitute a known moment into the unit coefficient,
but as soon as a semiknown relation applies to an objective monomial the
function raises a type error instead of substituting, because it iterates over
the `(coefficient, monomial)` pair itself. -/
theorem objective_semiknown_substitution_crashes :
    sdpUpdateObjective (1 : ℕ) [(1, 0), (2, 2)] [(2, 3 / 4)] [] = .ok [(1, 3 / 2)]
    ∧ sdpUpdateObjective (1 : ℕ) [(1, 0), (2, 2)] [] [(2, (1 / 2, 3))]
        = .error "TypeError: cannot unpack non-iterable float object" := by
  constructor
  · show Except.ok [(1, 0 + 2 * (3 / 4))] = _
    norm_num
  · rfl

-- The accumulation behavior of the symmetry-discovery loop.

theorem symLoop_go {K : Type} [DecidableEq K] (verbose : ℕ) (original : List K)
    (pls : List (List K)) : ∀ acc : List (List ℕ) × List String,
    pls.foldl (fun acc pl =>
      match findPermutation pl original with
      | .ok p => (acc.1 ++ [p], acc.2)
      | .error _ =>
        (acc.1, acc.2 ++ if verbose > 0 then [notClosedWarning] else [])) acc
    = (acc.1 ++ (pls.filter (fun pl => pl.all (fun x => decide (x ∈ original)))).map
          (fun pl => pl.map (fun x => firstIdxG original x)),
       acc.2 ++ if verbose > 0 then
          ((pls.filter (fun pl => !pl.all (fun x => decide (x ∈ original)))).map
            (fun _ => notClosedWarning))
        else []) := by
  induction pls with
  | nil =>
    intro acc
    simp
  | cons pl rest ih =>
    intro acc
    by_cases hcl : pl.all (fun x => decide (x ∈ original)) = true
    · rw [List.foldl_cons]
      have hfp : findPermutation pl original
          = .ok (pl.map (fun x => firstIdxG original x)) := by
        simp [findPermutation, hcl]
      rw [hfp]
      rw [ih]
      simp [List.filter_cons, hcl, List.append_assoc]
    · rw [List.foldl_cons]
      have hfp : findPermutation pl original = .error "not a permutation" := by
        simp only [findPermutation]
        rw [if_neg hcl]
      rw [hfp]
      rw [ih]
      rcases Nat.eq_zero_or_pos verbose with hv | hv
      · subst hv
        simp [hcl]
      · simp [hv, hcl]

/-- Claim C7 (amended): if the generating set is not closed under some source
swap, the symmetry is dropped and the remaining symmetries are still computed,
so the run completes; but the warning is only emitted when `verbose > 0` — with
the default `verbose = 0` no warning is ever emitted. -/
theorem inflation_symmetries_drop_unclosed (K : Type) [DecidableEq K] (verbose : ℕ)
    (original : List K) (pls : List (List K)) :
    (symLoop verbose original pls).1
      = (pls.filter (fun pl => pl.all (fun x => decide (x ∈ original)))).map
          (fun pl => pl.map (fun x => firstIdxG original x))
    ∧ (symLoop verbose original pls).2
      = (if verbose > 0 then
          ((pls.filter (fun pl => !pl.all (fun x => decide (x ∈ original)))).map
            (fun _ => notClosedWarning))
        else [])
    ∧ ∀ p, p ∈ (calculateInflationSymmetries verbose original pls).1
        ↔ p ∈ (symLoop verbose original pls).1 := by
  have hs : symLoop verbose original pls
      = ((pls.filter (fun pl => pl.all (fun x => decide (x ∈ original)))).map
          (fun pl => pl.map (fun x => firstIdxG original x)),
        if verbose > 0 then
          ((pls.filter (fun pl => !pl.all (fun x => decide (x ∈ original)))).map
            (fun _ => notClosedWarning))
        else []) := by
    rw [symLoop]
    rw [symLoop_go verbose original pls ([], [])]
    simp
  refine ⟨?_, ?_, fun p => ?_⟩
  · rw [hs]
  · rw [hs]
  · simp [calculateInflationSymmetries, uniqueRows, List.mem_insertionSort,
      List.mem_dedup]

/-- Counterexample for C7 as stated: with the default `verbose = 0`, a
generating set that is not closed under a source swap produces no warning at
all, even though the symmetry is silently dropped and the remaining symmetry is
returned. -/
theorem inflation_symmetries_no_warning_counterexample :
    calculateInflationSymmetries 0 [(0 : ℕ), 1] [[0, 1], [5, 1]] = ([[0, 1]], [])
    ∧ ([5, 1].all (fun x => decide (x ∈ [(0 : ℕ), 1]))) = false := by
  constructor
  · rfl
  · rfl

/-- Claim C4 (amended): in the SDP engine id 0 is the zero monomial and id 1
the unit, and the (spec-modelled) moment-matrix interning assigns all other ids
contiguously starting at 2; in the LP engine ids are the generating-column
positions starting at 0, and the monomial with id 0 is the unit (the blank
first column), so the LP reserves no id for a zero monomial and the unit does
not receive id 1. -/
theorem reserved_ids_per_engine (nrSources : ℕ) (K : Type) [DecidableEq K]
    (mons : List K) (L : ℕ) (bvs : List (List Bool)) :
    (sdpZero nrSources).idx = 0
    ∧ sdpOne.idx = 1
    ∧ (assignIdsSDP mons).map Prod.snd = List.range' 2 mons.dedup.length
    ∧ (lpAssignIndices bvs).map Prod.snd = List.range bvs.length
    ∧ (lpAssignIndices (List.replicate L false :: bvs)).headD ([], 0) = ([], 0) := by
  refine ⟨rfl, rfl, ?_, ?_, ?_⟩
  · rw [assignIdsSDP, List.map_map]
    have : (Prod.snd ∘ fun p : ℕ × K => (p.2, p.1 + 2)) = (fun p : ℕ × K => p.1 + 2) := rfl
    rw [this]
    have h2 : (fun p : ℕ × K => p.1 + 2) = ((fun n => n + 2) ∘ Prod.fst) := rfl
    rw [h2, ← List.map_map, List.enum_map_fst, List.range'_eq_map_range]
    refine List.map_congr_left ?_
    intro a _
    exact Nat.add_comm a 2
  · rw [lpAssignIndices, List.map_map]
    have : (Prod.snd ∘ fun p : ℕ × List Bool => (flatnonzero p.2, p.1)) = Prod.fst := rfl
    rw [this, List.enum_map_fst]
  · have hgen : ∀ (M n : ℕ),
        ((List.replicate M false).enumFrom n).filter (fun p => p.2) = [] := by
      intro M
      induction M with
      | zero => intro n; rfl
      | succ M ih =>
        intro n
        simp only [List.replicate_succ, List.enumFrom_cons, List.filter_cons]
        simpa using ih (n + 1)
    have hblank : flatnonzero (List.replicate L false) = [] := by
      rw [flatnonzero]
      rw [show (List.replicate L false).enum
          = (List.replicate L false).enumFrom 0 from rfl]
      rw [hgen L 0]
      rfl
    simp [lpAssignIndices, List.enum_cons, hblank]

/-- Counterexample for C4 as stated: in the LP engine the monomial receiving
id 0 is the unit (the empty operator list), not the zero monomial, and id 1
goes to an ordinary one-operator monomial, not to the unit. -/
theorem lp_unit_gets_id_zero_counterexample :
    lpAssignIndices [[false, false], [true, false], [false, true]]
      = [([], 0), ([0], 1), ([1], 2)]
    ∧ ([0] : List ℕ) ≠ [] := by
  constructor
  · rfl
  · decide

-- Lemmas about the orbit representative and the atomic-monomial caches.

theorem sorted_le_getLastD :
    ∀ {l : List (List Bool)}, l.Sorted LexLEB → ∀ {x}, x ∈ l → ∀ d, LexLEB x (l.getLastD d) := by
  intro l
  induction l with
  | nil =>
    intro _ x hx
    cases hx
  | cons a t ih =>
    intro hs x hx d
    rw [List.getLastD_cons]
    rcases List.mem_cons.mp hx with rfl | hxt
    · rcases List.mem_cons.mp (List.getLastD_mem_cons t x) with heq | hmem
      · rw [heq]
        exact refl_of LexLEB x
      · exact (List.sorted_cons.mp hs).1 _ hmem
    · exact ih (List.sorted_cons.mp hs).2 hxt a

theorem lookupKey_alias (orb : List (List Bool)) (rep x : List Bool) (hx : x ∈ orb) :
    lookupKey (orb.map (fun alt => (alt, rep))) x = some rep := by
  induction orb with
  | nil => cases hx
  | cons a t ih =>
    rcases List.mem_cons.mp hx with rfl | hxt
    · simp [lookupKey]
    · by_cases hxa : x = a
      · subst hxa
        simp [lookupKey]
      · simp [lookupKey, hxa, ih hxt]

theorem actPerm_range {L : ℕ} {b : List Bool} (hb : b.length = L) :
    actPerm (List.range L) b = b := by
  subst hb
  refine List.ext_getElem ?_ ?_
  · simp [actPerm]
  · intro i h1 h2
    simp only [actPerm, List.getElem_map, List.getElem_range]
    exact List.getD_eq_getElem b false h2

/-- Claim C3 (amended): the orbit representative chosen by
`InflationLP._AtomicMonomial` is the lexicographically greatest bit vector of
the orbit (the last row after `np.lexsort`): every orbit member compares
lexicographically no greater than it.  The claim's direction is reversed. -/
theorem orbit_representative_is_lex_max (syms : List (List ℕ)) (key x : List Bool)
    (hx : x ∈ orbitOf syms key) : LexLEB x (orbitRep syms key) := by
  have hmem : x ∈ sortedOrbit syms key := by
    rw [sortedOrbit]
    exact (List.mem_insertionSort LexLEB).mpr hx
  have hsorted : (sortedOrbit syms key).Sorted LexLEB :=
    List.sorted_insertionSort LexLEB (orbitOf syms key)
  exact sorted_le_getLastD hsorted hmem key

/-- Counterexample for C3 as stated: for the orbit of the bit vector
`[false, true]` under the swap symmetry, the stored representative is
`[true, false]`, which is lexicographically strictly greater than the orbit
member `[false, true]`; the representative is the lex maximum, not the lex
minimum. -/
theorem orbit_representative_not_lex_min_counterexample :
    orbitRep [[0, 1], [1, 0]] [false, true] = [true, false]
    ∧ actPerm [0, 1] [false, true] ∈ orbitOf [[0, 1], [1, 0]] [false, true]
    ∧ lexLeB (orbitRep [[0, 1], [1, 0]] [false, true]) (actPerm [0, 1] [false, true]) = false := by
  decide

/-- Witness for the amended C3 at a concrete orbit member. -/
theorem orbit_representative_is_lex_max_witness :
    [false, true] ∈ orbitOf [[0, 1], [1, 0]] [false, true]
    ∧ LexLEB [false, true] (orbitRep [[0, 1], [1, 0]] [false, true]) :=
  ⟨by decide, orbit_representative_is_lex_max [[0, 1], [1, 0]] [false, true] [false, true] (by decide)⟩

/-- Claim C1 (amended, LP part): in `InflationLP._AtomicMonomial`, after
interning a monomial from a fresh registry, constructing the atomic monomial
from any symmetry image of it is a cache hit: it returns the identical interned
atom and leaves the registry unchanged, and every orbit member's byte key is
aliased to that single stored representative. -/
theorem lp_symmetry_quotient_exact (L : ℕ) (syms : List (List ℕ)) (σ : List ℕ)
    (b : List Bool) (hid : List.range L ∈ syms) (hσ : σ ∈ syms) (hb : b.length = L) :
    lpAtomicMonomial syms (lpAtomicMonomial syms [] b).2 (actPerm σ b)
      = ((lpAtomicMonomial syms [] b).1, (lpAtomicMonomial syms [] b).2)
    ∧ ∀ g ∈ syms, lookupKey (lpAtomicMonomial syms [] b).2 (actPerm g b)
        = some (lpAtomicMonomial syms [] b).1 := by
  by_cases hlen : syms.length = 1
  · obtain ⟨g0, hg0⟩ := List.length_eq_one.mp hlen
    subst hg0
    have hg0id : g0 = List.range L := by
      rcases List.mem_singleton.mp hid with h
      exact h.symm
    subst hg0id
    have hσid : σ = List.range L := List.mem_singleton.mp hσ
    subst hσid
    have hact : actPerm (List.range L) b = b := actPerm_range hb
    have hc : lpAtomicMonomial [List.range L] [] b = (b, [(b, b)]) := by
      simp [lpAtomicMonomial, lookupKey]
    rw [hc, hact]
    refine ⟨?_, ?_⟩
    · simp [lpAtomicMonomial, lookupKey]
    · intro g hg
      rcases List.mem_singleton.mp hg with h
      subst h
      rw [actPerm_range hb]
      simp [lookupKey]
  · have hc : lpAtomicMonomial syms [] b
        = (orbitRep syms b,
           (sortedOrbit syms b).map (fun alt => (alt, orbitRep syms b))) := by
      simp [lpAtomicMonomial, lookupKey, hlen]
    have halias : ∀ g ∈ syms, lookupKey (lpAtomicMonomial syms [] b).2 (actPerm g b)
        = some (orbitRep syms b) := by
      intro g hg
      rw [hc]
      refine lookupKey_alias _ _ _ ?_
      rw [sortedOrbit]
      exact (List.mem_insertionSort LexLEB).mpr (List.mem_map.mpr ⟨g, hg, rfl⟩)
    refine ⟨?_, ?_⟩
    · have hl := halias σ hσ
      rw [hc] at hl ⊢
      simp only [lpAtomicMonomial, hl]
    · intro g hg
      rw [hc] at halias ⊢
      simpa [hc] using halias g hg

/-- Witness for the amended C1 at the concrete two-element symmetry group. -/
theorem lp_symmetry_quotient_exact_witness :
    List.range 2 ∈ [[0, 1], [1, 0]]
    ∧ lpAtomicMonomial [[0, 1], [1, 0]]
        (lpAtomicMonomial [[0, 1], [1, 0]] [] [false, true]).2 (actPerm [1, 0] [false, true])
      = ((lpAtomicMonomial [[0, 1], [1, 0]] [] [false, true]).1,
         (lpAtomicMonomial [[0, 1], [1, 0]] [] [false, true]).2)
    ∧ lookupKey (lpAtomicMonomial [[0, 1], [1, 0]] [] [false, true]).2
        (actPerm [1, 0] [false, true])
      = some (lpAtomicMonomial [[0, 1], [1, 0]] [] [false, true]).1 :=
  ⟨by decide,
   (lp_symmetry_quotient_exact 2 [[0, 1], [1, 0]] [1, 0] [false, true]
      (by decide) (by decide) (by decide)).1,
   (lp_symmetry_quotient_exact 2 [[0, 1], [1, 0]] [1, 0] [false, true]
      (by decide) (by decide) (by decide)).2 [1, 0] (by decide)⟩

/-- Counterexample for C1 as stated (SDP part): in `InflationSDP.AtomicMonomial`
with byte keys `10` (for a monomial m), `11` (for a symmetry image of m) and
representative `12`, constructing from the symmetry image after constructing
from m returns a freshly allocated atom — not the identical interned object —
with the same canonical array (hence the same name), and the byte key of the
orbit member `11` is not mapped by the registry after the first construction. -/
theorem sdp_atomic_not_identical_counterexample :
    (sdpAtomicMonomial (fun k => if k = 10 ∨ k = 11 ∨ k = 12 then 12 else k)
        (sdpAtomicMonomial (fun k => if k = 10 ∨ k = 11 ∨ k = 12 then 12 else k)
          (SdpAtomCaches.mk [] [] 0) 10).2 11).1
      ≠ (sdpAtomicMonomial (fun k => if k = 10 ∨ k = 11 ∨ k = 12 then 12 else k)
          (SdpAtomCaches.mk [] [] 0) 10).1
    ∧ (sdpAtomicMonomial (fun k => if k = 10 ∨ k = 11 ∨ k = 12 then 12 else k)
        (sdpAtomicMonomial (fun k => if k = 10 ∨ k = 11 ∨ k = 12 then 12 else k)
          (SdpAtomCaches.mk [] [] 0) 10).2 11).1.1
      = (sdpAtomicMonomial (fun k => if k = 10 ∨ k = 11 ∨ k = 12 then 12 else k)
          (SdpAtomCaches.mk [] [] 0) 10).1.1
    ∧ lookupKey ((sdpAtomicMonomial (fun k => if k = 10 ∨ k = 11 ∨ k = 12 then 12 else k)
          (SdpAtomCaches.mk [] [] 0) 10).2).atomic 11 = none := by
  decide

/-- Counterexample for C2 as stated: applying the symmetrisation to
`counterexampleMomentMatrix` with the single permutation `[1, 2, 3, 0]` yields
a matrix that is not invariant under that permutation: the permutation sends
the cell `(0, 0)` to `(1, 1)`, yet the returned entries there are 0 and 1. -/
theorem apply_inflation_symmetries_not_invariant_counterexample :
    entryM (applyInflationSymmetries counterexampleMomentMatrix [[1, 2, 3, 0]]) 0 0 = 0
    ∧ entryM (applyInflationSymmetries counterexampleMomentMatrix [[1, 2, 3, 0]]) 1 1 = 1
    ∧ [1, 2, 3, 0].getD 0 0 = 1 := by
  decide

-- Index/default bridging lemmas for list matrices.

theorem getD_lt {α : Type} (l : List α) (d : α) {i : ℕ} (h : i < l.length) :
    l.getD i d = l[i] := by
  simp [List.getD_eq_getElem?_getD, List.getElem?_eq_getElem h]

theorem getD_ge {α : Type} (l : List α) (d : α) {i : ℕ} (h : l.length ≤ i) :
    l.getD i d = d := by
  simp [List.getD_eq_getElem?_getD, List.getElem?_eq_none h]

theorem zipWith_min_getD_le (a b : List ℕ) (q : ℕ) :
    (List.zipWith Nat.min a b).getD q 0 ≤ a.getD q 0 := by
  by_cases h : q < (List.zipWith Nat.min a b).length
  · rw [getD_lt _ _ h, List.getElem_zipWith]
    have hq : q < a.length := by
      rw [List.length_zipWith] at h
      omega
    rw [getD_lt _ _ hq]
    exact Nat.min_le_left _ _
  · rw [getD_ge _ _ (Nat.le_of_not_lt h)]
    exact Nat.zero_le _

theorem flatten_minMatrix :
    ∀ (A B : List (List ℕ)), A.length = B.length →
      (∀ ab ∈ A.zip B, ab.1.length = ab.2.length) →
      (minMatrix A B).flatten = List.zipWith Nat.min A.flatten B.flatten := by
  intro A
  induction A with
  | nil =>
    intro B h _
    cases B with
    | nil => rfl
    | cons b B2 => cases h
  | cons a A2 ih =>
    intro B hlen hrows
    cases B with
    | nil => cases hlen
    | cons b B2 =>
      simp only [minMatrix, List.zipWith_cons_cons, List.flatten_cons]
      rw [List.zipWith_append _ _ _ _ _ (hrows (a, b) (by simp [List.zip_cons_cons]))]
      rw [show (List.zipWith (List.zipWith Nat.min) A2 B2) = minMatrix A2 B2 from rfl]
      rw [ih B2 (by simpa using hlen)
        (fun ab hab => hrows ab (by simp [List.zip_cons_cons]; right; exact hab))]

theorem permutedMatrix_shape (p : List ℕ) (A : List (List ℕ)) :
    (permutedMatrix p A).length = p.length
    ∧ ∀ row ∈ permutedMatrix p A, row.length = p.length := by
  constructor
  · simp [permutedMatrix]
  · intro row hrow
    obtain ⟨i, _, rfl⟩ := List.mem_map.mp hrow
    simp

theorem symPass_shape {n : ℕ} {A : List (List ℕ)} {p : List ℕ}
    (hA1 : A.length = n) (hA2 : ∀ row ∈ A, row.length = n) (hp : p.length = n) :
    (symPass A p).length = n ∧ ∀ row ∈ symPass A p, row.length = n := by
  constructor
  · simp [symPass, minMatrix, List.length_zipWith, hA1, (permutedMatrix_shape p A).1, hp]
  · intro row hrow
    obtain ⟨i, hi, rfl⟩ := List.mem_iff_getElem.mp hrow
    have hi2 : i < (List.zipWith (List.zipWith Nat.min) A (permutedMatrix p A)).length := hi
    have hiA : i < A.length := by
      rw [List.length_zipWith] at hi2
      omega
    have hiP : i < (permutedMatrix p A).length := by
      rw [List.length_zipWith] at hi2
      omega
    have he : (symPass A p)[i]
        = List.zipWith Nat.min A[i] (permutedMatrix p A)[i] :=
      List.getElem_zipWith
    rw [he, List.length_zipWith, hA2 _ (List.getElem_mem hiA),
      (permutedMatrix_shape p A).2 _ (List.getElem_mem hiP), hp]
    exact Nat.min_self n

theorem symmetrizedArr_facts {n : ℕ} :
    ∀ (perms : List (List ℕ)) (M : List (List ℕ)),
      M.length = n → (∀ row ∈ M, row.length = n) → (∀ p ∈ perms, p.length = n) →
      ((symmetrizedArr M perms).length = n
        ∧ ∀ row ∈ symmetrizedArr M perms, row.length = n)
      ∧ ∀ q, (symmetrizedArr M perms).flatten.getD q 0 ≤ M.flatten.getD q 0 := by
  intro perms
  induction perms with
  | nil =>
    intro M h1 h2 _
    exact ⟨⟨h1, h2⟩, fun q => le_refl _⟩
  | cons p rest ih =>
    intro M h1 h2 hp
    have hpn : p.length = n := hp p (List.mem_cons_self p rest)
    have hshape := symPass_shape h1 h2 hpn
    have hrec := ih (symPass M p) hshape.1 hshape.2
      (fun q hq => hp q (List.mem_cons_of_mem _ hq))
    have hstep : symmetrizedArr M (p :: rest) = symmetrizedArr (symPass M p) rest := rfl
    refine ⟨by rw [hstep]; exact hrec.1, fun q => ?_⟩
    have hflat : (symPass M p).flatten
        = List.zipWith Nat.min M.flatten (permutedMatrix p M).flatten := by
      refine flatten_minMatrix M (permutedMatrix p M) ?_ ?_
      · rw [(permutedMatrix_shape p M).1, hpn, h1]
      · intro ab hab
        have hmem := List.of_mem_zip hab
        rw [h2 ab.1 hmem.1, (permutedMatrix_shape p M).2 ab.2 hmem.2, hpn]
    have h3 : (symPass M p).flatten.getD q 0 ≤ M.flatten.getD q 0 := by
      rw [hflat]
      exact zipWith_min_getD_le _ _ _
    calc (symmetrizedArr M (p :: rest)).flatten.getD q 0
        = (symmetrizedArr (symPass M p) rest).flatten.getD q 0 := by rw [hstep]
      _ ≤ (symPass M p).flatten.getD q 0 := hrec.2 q
      _ ≤ M.flatten.getD q 0 := h3

theorem getD_firstIdxG {l : List ℕ} {v : ℕ} (hv : v ∈ l) :
    l.getD (firstIdxG l v) 0 = v := by
  induction l with
  | nil => cases hv
  | cons a t ih =>
    by_cases h : a = v
    · simp [firstIdxG, h]
    · have hvt : v ∈ t := by
        rcases List.mem_cons.mp hv with h2 | h2
        · exact absurd h2.symm h
        · exact h2
      rw [show firstIdxG (a :: t) v = firstIdxG t v + 1 from by simp [firstIdxG, h]]
      rw [List.getD_cons_succ]
      exact ih hvt

theorem mem_uniqueSorted {l : List ℕ} {v : ℕ} : v ∈ uniqueSorted l ↔ v ∈ l :=
  (List.mem_insertionSort (· ≤ ·)).trans List.mem_dedup

theorem uniqueSorted_sorted (l : List ℕ) : (uniqueSorted l).Sorted (· ≤ ·) :=
  List.sorted_insertionSort (· ≤ ·) l.dedup

theorem uniqueSorted_nodup (l : List ℕ) : (uniqueSorted l).Nodup :=
  (List.perm_insertionSort (· ≤ ·) l.dedup).nodup_iff.mpr (List.nodup_dedup l)

theorem orbitsInit_length (M perms : List (List ℕ)) :
    (orbitsInit M perms).length
      = minValL M.flatten + (uniqueSorted M.flatten).length := by
  simp [orbitsInit]

theorem orbitsInit_le (M perms : List (List ℕ))
    (hrow : ∀ row ∈ M, row.length = M.length)
    (hp : ∀ p ∈ perms, p.length = M.length)
    (hcontig : uniqueSorted M.flatten
      = List.range' (minValL M.flatten) (uniqueSorted M.flatten).length) :
    ∀ v, (orbitsInit M perms).getD v v ≤ v := by
  intro v
  by_cases h1 : v < minValL M.flatten
  · have hv : (orbitsInit M perms).getD v v = v := by
      rw [orbitsInit]
      rw [List.getD_eq_getElem?_getD]
      rw [List.getElem?_append_left (by simpa using h1)]
      rw [← List.getD_eq_getElem?_getD]
      rw [getD_lt _ _ (by simpa using h1)]
      simp
    rw [hv]
  · by_cases h2 : v < minValL M.flatten + (uniqueSorted M.flatten).length
    · have hidx : v - minValL M.flatten < (uniqueSorted M.flatten).length := by omega
      have hstep : (orbitsInit M perms).getD v v
          = ((uniqueSorted M.flatten).map
              (fun w => ((symmetrizedArr M perms).flatten).getD (firstIdxG M.flatten w) 0)
            ).getD (v - minValL M.flatten) v := by
        rw [orbitsInit]
        rw [List.getD_eq_getElem?_getD]
        rw [List.getElem?_append_right (by simpa using Nat.le_of_not_lt h1)]
        rw [List.length_range]
        rw [← List.getD_eq_getElem?_getD]
      rw [hstep]
      rw [getD_lt _ _ (by simpa using hidx)]
      rw [List.getElem_map]
      have husv : (uniqueSorted M.flatten)[v - minValL M.flatten] = v := by
        have h3 : (uniqueSorted M.flatten).getD (v - minValL M.flatten) 0 = v := by
          rw [hcontig]
          rw [getD_lt _ _ (by simpa using hidx)]
          rw [List.getElem_range']
          omega
        exact (getD_lt _ _ hidx).symm.trans h3
      rw [husv]
      have hvmem : v ∈ M.flatten := by
        refine mem_uniqueSorted.mp ?_
        rw [← husv]
        exact List.getElem_mem hidx
      have hle := (symmetrizedArr_facts perms M rfl hrow hp).2 (firstIdxG M.flatten v)
      have hval : M.flatten.getD (firstIdxG M.flatten v) 0 = v := getD_firstIdxG hvmem
      rw [hval] at hle
      exact hle
    · have hlen : (orbitsInit M perms).length ≤ v := by
        rw [orbitsInit_length]
        omega
      rw [getD_ge _ _ hlen]

theorem chaseFuelL_fix (s : List ℕ) (hdec : ∀ j, s.getD j j ≤ j) :
    ∀ (fuel v : ℕ), v < fuel →
      chaseFuelL s fuel v ≤ v
      ∧ s.getD (chaseFuelL s fuel v) (chaseFuelL s fuel v) = chaseFuelL s fuel v := by
  intro fuel
  induction fuel with
  | zero =>
    intro v hv
    exact absurd hv (Nat.not_lt_zero v)
  | succ fuel ih =>
    intro v hv
    by_cases h : s.getD v v = v
    · have hstep : chaseFuelL s (fuel + 1) v = v := by
        rw [chaseFuelL]
        rw [if_pos h]
      rw [hstep]
      exact ⟨le_refl v, h⟩
    · have hstep : chaseFuelL s (fuel + 1) v = chaseFuelL s fuel (s.getD v v) := by
        rw [chaseFuelL]
        rw [if_neg h]
      have hlt : s.getD v v < v := lt_of_le_of_ne (hdec v) h
      have hfuel : s.getD v v < fuel := by omega
      obtain ⟨ih1, ih2⟩ := ih (s.getD v v) hfuel
      rw [hstep]
      exact ⟨le_trans ih1 (le_of_lt hlt), ih2⟩

theorem getD_set_ne {α : Type} (s : List α) (k j : ℕ) (r d : α) (h : j ≠ k) :
    (s.set k r).getD j d = s.getD j d := by
  simp [List.getD_eq_getElem?_getD, List.getElem?_set_ne (Ne.symm h)]

theorem getD_set_self {α : Type} (s : List α) (k : ℕ) (r d : α) (h : k < s.length) :
    (s.set k r).getD k d = r := by
  simp [List.getD_eq_getElem?_getD, List.getElem?_set_self h]

theorem chaseLoopAux_succ (s0 : List ℕ) (k : ℕ) :
    chaseLoopAux s0 (k + 1)
      = (chaseLoopAux s0 k).set k
          (chaseFuelL (chaseLoopAux s0 k) ((chaseLoopAux s0 k).length + 1) k) := by
  rw [chaseLoopAux, chaseLoopAux, List.range_succ, List.foldl_append, List.foldl_cons,
    List.foldl_nil]

theorem chaseLoopAux_facts (s0 : List ℕ) (hdec : ∀ j, s0.getD j j ≤ j) :
    ∀ k, k ≤ s0.length →
      (chaseLoopAux s0 k).length = s0.length
      ∧ (∀ j, (chaseLoopAux s0 k).getD j j ≤ j)
      ∧ ∀ j, j < k →
          (chaseLoopAux s0 k).getD ((chaseLoopAux s0 k).getD j j)
              ((chaseLoopAux s0 k).getD j j)
            = (chaseLoopAux s0 k).getD j j := by
  intro k
  induction k with
  | zero =>
    intro _
    exact ⟨rfl, hdec, fun j hj => absurd hj (Nat.not_lt_zero j)⟩
  | succ k ih =>
    intro hk
    obtain ⟨ihlen, ihdec, ihfix⟩ := ih (Nat.le_of_succ_le hk)
    have hklt : k < (chaseLoopAux s0 k).length := by
      rw [ihlen]
      omega
    obtain ⟨hr1, hr2⟩ := chaseFuelL_fix (chaseLoopAux s0 k) ihdec
      ((chaseLoopAux s0 k).length + 1) k (by omega)
    rw [chaseLoopAux_succ]
    refine ⟨?_, ?_, ?_⟩
    · rw [List.length_set, ihlen]
    · intro j
      by_cases hj : j = k
      · subst hj
        rw [getD_set_self _ _ _ _ hklt]
        exact hr1
      · rw [getD_set_ne _ _ _ _ _ hj]
        exact ihdec j
    · intro j hj
      by_cases hj2 : j = k
      · subst hj2
        rw [getD_set_self _ _ _ _ hklt]
        by_cases hfix : chaseFuelL (chaseLoopAux s0 j) ((chaseLoopAux s0 j).length + 1) j = j
        · rw [hfix, getD_set_self _ _ _ _ hklt]
        · rw [getD_set_ne _ _ _ _ _ hfix]
          exact hr2
      · have hne : j ≠ k := hj2
        rw [getD_set_ne _ _ _ _ _ hne]
        have hxne : (chaseLoopAux s0 k).getD j j ≠ k := by
          have := ihdec j
          omega
        rw [getD_set_ne _ _ _ _ _ hxne]
        exact ihfix j (by omega)

theorem chaseLoop_facts (s0 : List ℕ) (hdec : ∀ j, s0.getD j j ≤ j) :
    (∀ j, (chaseLoop s0).getD j j ≤ j)
    ∧ ∀ j, j < s0.length →
        (chaseLoop s0).getD ((chaseLoop s0).getD j j) ((chaseLoop s0).getD j j)
          = (chaseLoop s0).getD j j := by
  have h := chaseLoopAux_facts s0 hdec s0.length (le_refl _)
  have he : chaseLoop s0 = chaseLoopAux s0 s0.length := rfl
  rw [he]
  exact ⟨h.2.1, h.2.2⟩

theorem entryM_map (f : ℕ → ℕ) (M : List (List ℕ)) (i j : ℕ)
    (hi : i < M.length) (hj : j < (M.getD i []).length) :
    entryM (M.map (fun row => row.map f)) i j = f (entryM M i j) := by
  have h1 : (M.map (fun row => row.map f)).getD i [] = (M.getD i []).map f := by
    rw [getD_lt _ _ (by simpa using hi)]
    rw [List.getElem_map]
    rw [getD_lt _ _ hi]
  rw [entryM, entryM, h1]
  rw [getD_lt _ _ (by simpa using hj)]
  rw [List.getElem_map]
  rw [getD_lt _ _ hj]

theorem firstIdxG_getElem (l : List ℕ) (hn : l.Nodup) :
    ∀ (i : ℕ) (hi : i < l.length), firstIdxG l l[i] = i := by
  induction l with
  | nil =>
    intro i hi
    exact absurd hi (Nat.not_lt_zero i)
  | cons a t ih =>
    intro i hi
    cases i with
    | zero =>
      simp [firstIdxG]
    | succ k =>
      have hk : k < t.length := by simpa using hi
      have hmem : t[k] ∈ t := List.getElem_mem hk
      have hne : a ≠ t[k] := by
        intro he
        exact (List.nodup_cons.mp hn).1 (he ▸ hmem)
      have hstep : (a :: t)[k + 1] = t[k] := rfl
      rw [hstep, firstIdxG, if_neg hne]
      rw [ih (List.nodup_cons.mp hn).2 k hk]

theorem nodup_firstIdxG_map (l : List ℕ) (hn : l.Nodup) :
    l.map (firstIdxG l) = List.range l.length := by
  apply List.ext_getElem
  · simp
  · intro i h1 h2
    rw [List.getElem_map, List.getElem_range]
    exact firstIdxG_getElem l hn i (by simpa using h1)

/-- C2: amended behaviour of `_apply_inflation_symmetries`. On a square moment
matrix whose distinct ids are contiguous from their minimum (the shape the
caller guarantees), the returned matrix replaces every entry `M[i, j]` by the
rank, among the sorted surviving orbit values, of the chased representative
`orbits[M[i, j]]`; the chased orbit array never increases an id and is a fixed
point on every in-range key, and ranking the sorted survivors by first index
relabels them contiguously as `0, 1, 2, ...`. (Invariance of the output under
the permutations themselves is NOT guaranteed; see the counterexample.) -/
theorem apply_inflation_symmetries_chased (M perms : List (List ℕ))
    (hrow : ∀ row ∈ M, row.length = M.length)
    (hp : ∀ p ∈ perms, p.length = M.length)
    (hcontig : uniqueSorted M.flatten
      = List.range' (minValL M.flatten) (uniqueSorted M.flatten).length) :
    (∀ i j, i < M.length → j < M.length →
        entryM (applyInflationSymmetries M perms) i j
          = firstIdxG (uniqueSorted (chaseLoop (orbitsInit M perms)))
              ((chaseLoop (orbitsInit M perms)).getD (entryM M i j) (entryM M i j)))
    ∧ (∀ v, (chaseLoop (orbitsInit M perms)).getD v v ≤ v)
    ∧ (∀ j, j < (orbitsInit M perms).length →
        (chaseLoop (orbitsInit M perms)).getD
            ((chaseLoop (orbitsInit M perms)).getD j j)
            ((chaseLoop (orbitsInit M perms)).getD j j)
          = (chaseLoop (orbitsInit M perms)).getD j j)
    ∧ (uniqueSorted (chaseLoop (orbitsInit M perms))).map
        (firstIdxG (uniqueSorted (chaseLoop (orbitsInit M perms))))
      = List.range (uniqueSorted (chaseLoop (orbitsInit M perms))).length := by
  have hdec := orbitsInit_le M perms hrow hp hcontig
  have hchase := chaseLoop_facts (orbitsInit M perms) hdec
  refine ⟨?_, hchase.1, hchase.2, ?_⟩
  · intro i j hi hj
    have hrowlen : (M.getD i []).length = M.length := by
      rw [getD_lt _ _ hi]
      exact hrow _ (List.getElem_mem hi)
    have hj' : j < (M.getD i []).length := by
      rw [hrowlen]
      exact hj
    simp only [applyInflationSymmetries]
    exact entryM_map _ M i j hi hj'
  · exact nodup_firstIdxG_map _ (uniqueSorted_nodup _)

/-- Witness for C2 at the 2x2 matrix `[[0, 1], [1, 0]]` with the swap
permutation: the entry formula and the decrease property hold concretely. -/
theorem apply_inflation_symmetries_chased_witness :
    entryM (applyInflationSymmetries [[0, 1], [1, 0]] [[1, 0]]) 0 1
      = firstIdxG (uniqueSorted (chaseLoop (orbitsInit [[0, 1], [1, 0]] [[1, 0]])))
          ((chaseLoop (orbitsInit [[0, 1], [1, 0]] [[1, 0]])).getD
            (entryM [[0, 1], [1, 0]] 0 1) (entryM [[0, 1], [1, 0]] 0 1))
    ∧ (chaseLoop (orbitsInit [[0, 1], [1, 0]] [[1, 0]])).getD 1 1 ≤ 1 :=
  ⟨(apply_inflation_symmetries_chased [[0, 1], [1, 0]] [[1, 0]]
      (by decide) (by decide) (by decide)).1 0 1 (by decide) (by decide),
   (apply_inflation_symmetries_chased [[0, 1], [1, 0]] [[1, 0]]
      (by decide) (by decide) (by decide)).2.1 1⟩

set_option maxRecDepth 10000 in
/-- C9: in the bilocal scenario (three parties in a line sharing two
sources, inflation level [2,2], binary outcomes in Collins-Gisin form and
single settings), the npa2 generating set has exactly 41 monomials under
non-commuting operators and exactly 37 under commuting operators. -/
theorem bilocal_npa2_column_counts :
    (bilocalColumns false).length = 41 ∧ (bilocalColumns true).length = 37 :=
  ⟨rfl, rfl⟩
